import Mathlib

/-!
Verification of the transactional LRU cache `bjg::lru_cache<Key, Value>` from
`src/include/bjg/lru_cache.hpp`.

State model (shallow embedding):
* `items` models `items_ : std::list<std::pair<const Key, Value>>`; the head of
  the list is the front of the `std::list`, i.e. the most-recently-used entry.
* `keys` models the key set of `keys_ : std::unordered_map<const Key, iterator>`.
  The iterator stored for a key always designates the unique node of `items_`
  holding that key (list splicing never invalidates iterators), so the locator
  is resolved by key lookup in `items`, and the map is carried as the list of
  registered keys.
* The caller-supplied `std::hash<Key>` may throw.  `FaultCfg` names one key
  (`badKey`) whose hash throws exactly on the invocation numbers listed in
  `failTimes`, mirroring the fault-injecting `std::hash<int_wrapper>` of the
  test suite (a static counter incremented on each invocation with that
  argument).  The counter is threaded through every container operation that
  hashes its key argument: `find`, `emplace`, and `erase`-by-key each hash once.
  Hashes of other keys never fail and do not touch the counter.

Every operation returns the cache state left behind together with the new hash
counter and an `Except` carrying the C++ exception outcome
(`std::length_error` / `std::out_of_range` / the injected hashing exception).
-/

namespace bjg

/-- The exceptions the C++ code can let escape: `std::length_error` from the
constructor, `std::out_of_range` from `get`, and the caller-supplied hashing
exception (`invalid_hashing_argument` in the test suite). -/
inductive CacheError : Type where
  | invalidCapacity : CacheError
  | keyNotFound : CacheError
  | hashFailure : CacheError
deriving DecidableEq, Repr

/-- Fault-injection schedule for the caller-supplied hash: hashing `badKey`
throws on the invocation numbers (1-based) listed in `failTimes`; hashing any
other key never throws. This models `std::hash<int_wrapper>` in
`src/test/lru_cache_tests.cpp`. -/
structure FaultCfg (K : Type) where
  badKey : K
  failTimes : List Nat
deriving DecidableEq, Repr

/-- State of a `bjg::lru_cache<K, V>`: the fixed `capacity_`, the recency list
`items_` (head = most recently used) and the registered key set of `keys_`. -/
structure Cache (K V : Type) where
  capacity : Nat
  items : List (K × V)
  keys : List K
deriving DecidableEq, Repr

variable {K V : Type} [DecidableEq K]

/-- One invocation of `std::hash<K>` on `k`: returns the new invocation counter
for `cfg.badKey` and whether this invocation threw. -/
def hashCall (cfg : FaultCfg K) (k : K) (cnt : Nat) : Nat × Bool :=
  if k = cfg.badKey then (cnt + 1, decide ((cnt + 1) ∈ cfg.failTimes))
  else (cnt, false)

/-- `lru_cache::lru_cache(capacity)`: throws `std::length_error` when
`capacity == 0`, otherwise produces the empty cache with that bound. -/
def construct (K V : Type) (capacity : Nat) : Except CacheError (Cache K V) :=
  if capacity = 0 then Except.error CacheError.invalidCapacity
  else Except.ok { capacity := capacity, items := [], keys := [] }

/-- `lru_cache::size()`: `keys_.size()`. -/
def size (c : Cache K V) : Nat := c.keys.length

/-- `lru_cache::empty()`: `keys_.empty()`. -/
def empty (c : Cache K V) : Bool := c.keys.isEmpty

/-- `lru_cache::clear()`: `keys_.clear(); items_.clear();`. -/
def clear (c : Cache K V) : Cache K V := { c with items := [], keys := [] }

/-- `lru_cache::contains(key)`: `keys_.find(key) != keys_.cend()`. The `find`
hashes `key` once; a hashing exception propagates with no state change. -/
def contains (cfg : FaultCfg K) (k : K) (c : Cache K V) (cnt : Nat) :
    Nat × Except CacheError Bool :=
  let r := hashCall cfg k cnt
  if r.2 then (r.1, Except.error CacheError.hashFailure)
  else (r.1, Except.ok (decide (k ∈ c.keys)))

/-- `lru_cache::move_to_front(key)`: `keys_.find(key)` hashes once; if the
located node is already `items_.begin()` this is a no-op; otherwise the node is
spliced to the front (the subsequent guarded iterator swap is noexcept and is
dismissed, so it never rolls back).  The locator stored for `key` designates
the node holding `key`, hence the lookup by key below; the `none` branch is
unreachable from the public interface (the source requires `key` to exist). -/
def move_to_front (cfg : FaultCfg K) (k : K) (c : Cache K V) (cnt : Nat) :
    Cache K V × Nat × Except CacheError Unit :=
  let r := hashCall cfg k cnt
  if r.2 then (c, r.1, Except.error CacheError.hashFailure)
  else if c.items.head?.map Prod.fst = some k then (c, r.1, Except.ok ())
  else
    match c.items.find? (fun p => decide (p.1 = k)) with
    | none => (c, r.1, Except.ok ())
    | some e =>
      ({ c with items := e :: c.items.eraseP (fun p => decide (p.1 = k)) },
       r.1, Except.ok ())

/-- `lru_cache::update_front_value(value)`: `items_.front().second = value`
(via copy-and-swap). -/
def update_front_value (v : V) (c : Cache K V) : Cache K V :=
  { c with items :=
      match c.items with
      | [] => []
      | e :: rest => (e.1, v) :: rest }

/-- `lru_cache::restrict_capacity()`: when `items_.size() > capacity_`, erase
the back entry's key from `keys_` (this `erase`-by-key hashes the evicted key
and may throw before erasing anything) and then `items_.pop_back()`.  The
`none` branch of `getLast?` is unreachable (`size > capacity` forces a
non-empty list). -/
def restrict_capacity (cfg : FaultCfg K) (c : Cache K V) (cnt : Nat) :
    Cache K V × Nat × Except CacheError Unit :=
  if c.items.length > c.capacity then
    match c.items.getLast? with
    | none => (c, cnt, Except.ok ())
    | some back =>
      let r := hashCall cfg back.1 cnt
      if r.2 then (c, r.1, Except.error CacheError.hashFailure)
      else
        ({ c with items := c.items.dropLast, keys := c.keys.erase back.1 },
         r.1, Except.ok ())
  else (c, cnt, Except.ok ())

/-- `lru_cache::insert_new_item(item)`: push the entry to the front, then a
guarded `keys_.emplace(item.first, items_.begin())` (one hash; on throw the
guard pops the front again), then a guarded `restrict_capacity()` (on throw
the guard erases the just-emplaced index entry — by iterator, no hash — and
pops the front). -/
def insert_new_item (cfg : FaultCfg K) (item : K × V) (c : Cache K V) (cnt : Nat) :
    Cache K V × Nat × Except CacheError Unit :=
  let c1 : Cache K V := { c with items := item :: c.items }
  let r := hashCall cfg item.1 cnt
  if r.2 then
    ({ c1 with items := c1.items.tail }, r.1, Except.error CacheError.hashFailure)
  else
    let c2 : Cache K V := { c1 with keys := item.1 :: c1.keys }
    match restrict_capacity cfg c2 r.1 with
    | (c3, cnt3, Except.error e) =>
      ({ c3 with items := c3.items.tail, keys := c3.keys.erase item.1 },
       cnt3, Except.error e)
    | (c3, cnt3, Except.ok _) => (c3, cnt3, Except.ok ())

/-- `lru_cache::put(item)`: branch on `contains(item.first)` (which may throw),
then either promote-and-update or insert as a new item. -/
def put (cfg : FaultCfg K) (item : K × V) (c : Cache K V) (cnt : Nat) :
    Cache K V × Nat × Except CacheError Unit :=
  match contains cfg item.1 c cnt with
  | (cnt1, Except.error e) => (c, cnt1, Except.error e)
  | (cnt1, Except.ok b) =>
    if b then
      match move_to_front cfg item.1 c cnt1 with
      | (c2, cnt2, Except.error e) => (c2, cnt2, Except.error e)
      | (c2, cnt2, Except.ok _) => (update_front_value item.2 c2, cnt2, Except.ok ())
    else insert_new_item cfg item c cnt1

/-- `lru_cache::get(key)`: throws `std::out_of_range` when `contains` is false;
otherwise `move_to_front(key)` and return `get_front_value()`
(`items_.front().second`).  The empty-list branch is unreachable (the key was
just found). -/
def get (cfg : FaultCfg K) (k : K) (c : Cache K V) (cnt : Nat) :
    Cache K V × Nat × Except CacheError V :=
  match contains cfg k c cnt with
  | (cnt1, Except.error e) => (c, cnt1, Except.error e)
  | (cnt1, Except.ok b) =>
    if b then
      match move_to_front cfg k c cnt1 with
      | (c2, cnt2, Except.error e) => (c2, cnt2, Except.error e)
      | (c2, cnt2, Except.ok _) =>
        match c2.items with
        | [] => (c2, cnt2, Except.error CacheError.keyNotFound)
        | e :: _ => (c2, cnt2, Except.ok e.2)
    else (c, cnt1, Except.error CacheError.keyNotFound)

/-- Run a sequence of `put` calls, threading cache state and hash counter. -/
def putSeq (cfg : FaultCfg K) (es : List (K × V)) (c : Cache K V) (cnt : Nat) :
    Cache K V × Nat :=
  match es with
  | [] => (c, cnt)
  | e :: rest =>
    let r := put cfg e c cnt
    putSeq cfg rest r.1 r.2.1

/-- The representation invariant of `bjg::lru_cache` (spec §3): the index and
the sequence have `size()` entries each, `size() <= capacity`, the index's key
set equals the sequence's key set, and keys are duplicate-free. -/
def Inv (c : Cache K V) : Prop :=
  c.keys.length = c.items.length ∧
  c.keys.length ≤ c.capacity ∧
  (∀ k : K, k ∈ c.keys ↔ k ∈ c.items.map Prod.fst) ∧
  (c.items.map Prod.fst).Nodup ∧
  c.keys.Nodup

/-- States reachable from a freshly constructed cache by any sequence of public
calls, successful or rolled back (each call may run under any fault schedule
and any hash-counter value; `contains`, `size` and `empty` do not change the
state and are omitted). -/
inductive Reachable : Cache K V → Prop where
  | init (capacity : Nat) (h : capacity ≠ 0) :
      Reachable { capacity := capacity, items := [], keys := [] }
  | put (cfg : FaultCfg K) (item : K × V) (c : Cache K V) (cnt : Nat) :
      Reachable c → Reachable (bjg.put cfg item c cnt).1
  | get (cfg : FaultCfg K) (k : K) (c : Cache K V) (cnt : Nat) :
      Reachable c → Reachable (bjg.get cfg k c cnt).1
  | clear (c : Cache K V) : Reachable c → Reachable (bjg.clear c)

/-! ### Basic facts about the fault-injected hash -/

theorem hashCall_ne (cfg : FaultCfg K) {k : K} (h : k ≠ cfg.badKey) (cnt : Nat) :
    hashCall cfg k cnt = (cnt, false) := by
  simp [hashCall, h]

theorem hashCall_nil (cfg : FaultCfg K) (h : cfg.failTimes = []) (k : K) (cnt : Nat) :
    (hashCall cfg k cnt).2 = false := by
  unfold hashCall
  split <;> simp [h]

/-! ### List helper lemmas -/

theorem perm_cons_eraseP_of_find? {α : Type} {p : α → Bool} {l : List α} {e : α}
    (h : l.find? p = some e) : l.Perm (e :: l.eraseP p) := by
  induction l with
  | nil => simp at h
  | cons a t ih =>
    by_cases hp : p a
    · rw [List.find?_cons_of_pos _ hp] at h
      cases h
      rw [List.eraseP_cons_of_pos hp]
    · rw [List.find?_cons_of_neg _ hp] at h
      rw [List.eraseP_cons_of_neg hp]
      exact ((ih h).cons a).trans (List.Perm.swap e a _)

theorem mem_of_getLast?_eq_some {α : Type} {l : List α} {b : α}
    (h : l.getLast? = some b) : b ∈ l := by
  have hd : l.dropLast ++ [b] = l := List.dropLast_append_getLast? b h
  rw [← hd]
  exact List.mem_append_right _ (List.mem_singleton_self b)

theorem not_mem_dropLast_of_nodup {α : Type} {l : List α} {b : α}
    (hnd : l.Nodup) (h : l.getLast? = some b) : b ∉ l.dropLast := by
  have hd : l.dropLast ++ [b] = l := List.dropLast_append_getLast? b h
  rw [← hd] at hnd
  have := (List.nodup_append.mp hnd).2.2
  intro hb
  exact this hb (List.mem_singleton_self b)

theorem mem_dropLast_iff_of_nodup {α : Type} {l : List α} {b : α}
    (hnd : l.Nodup) (h : l.getLast? = some b) (x : α) :
    x ∈ l.dropLast ↔ x ∈ l ∧ x ≠ b := by
  have hd : l.dropLast ++ [b] = l := List.dropLast_append_getLast? b h
  constructor
  · intro hx
    refine ⟨by rw [← hd]; exact List.mem_append_left _ hx, ?_⟩
    rintro rfl
    exact not_mem_dropLast_of_nodup hnd h hx
  · rintro ⟨hxl, hxb⟩
    rw [← hd] at hxl
    rcases List.mem_append.mp hxl with h' | h'
    · exact h'
    · exact absurd (List.mem_singleton.mp h') hxb

theorem erase_getLast_of_nodup {α : Type} [DecidableEq α] {l : List α} {b : α}
    (hnd : l.Nodup) (h : l.getLast? = some b) : l.erase b = l.dropLast := by
  have hd : l.dropLast ++ [b] = l := List.dropLast_append_getLast? b h
  have hb : b ∉ l.dropLast := not_mem_dropLast_of_nodup hnd h
  calc l.erase b = (l.dropLast ++ [b]).erase b := by rw [hd]
    _ = l.dropLast ++ ([b].erase b) := List.erase_append_right _ hb
    _ = l.dropLast := by simp

theorem take_append_take {α : Type} (A B : List α) (n : Nat) :
    (A ++ B.take n).take n = (A ++ B).take n := by
  rw [List.take_append_eq_append_take, List.take_append_eq_append_take, List.take_take,
    Nat.min_eq_left (Nat.sub_le n A.length)]

/-- When a key is registered and the invariant holds, the recency sequence
holds an entry for it, and `find?` locates that entry. -/
theorem find?_eq_some_of_mem_keys {c : Cache K V} (hInv : Inv c) {k : K}
    (hk : k ∈ c.keys) :
    ∃ e : K × V, c.items.find? (fun p => decide (p.1 = k)) = some e ∧ e.1 = k := by
  have hk' : k ∈ c.items.map Prod.fst := (hInv.2.2.1 k).mp hk
  obtain ⟨p, hp, hpk⟩ := List.mem_map.mp hk'
  have hsome : (c.items.find? (fun q => decide (q.1 = k))).isSome := by
    rw [List.find?_isSome]
    exact ⟨p, hp, by simp [hpk]⟩
  obtain ⟨e, he⟩ := Option.isSome_iff_exists.mp hsome
  have hek := List.find?_some he
  simp only [decide_eq_true_eq] at hek
  exact ⟨e, he, hek⟩

/-- A successful `move_to_front` splices the located entry to the front of the
recency list and touches nothing else. -/
theorem move_to_front_ok (cfg : FaultCfg K) (c : Cache K V) (k : K)
    (cnt cnt1 : Nat) (h : hashCall cfg k cnt = (cnt1, false)) {e : K × V}
    (he : c.items.find? (fun p => decide (p.1 = k)) = some e) :
    move_to_front cfg k c cnt =
      ({ c with items := e :: c.items.eraseP (fun p => decide (p.1 = k)) },
       cnt1, Except.ok ()) := by
  by_cases hhead : c.items.head?.map Prod.fst = some k
  · obtain ⟨p, rest, hitems⟩ : ∃ p rest, c.items = p :: rest := by
      cases hi : c.items with
      | nil => rw [hi] at hhead; simp at hhead
      | cons p rest => exact ⟨p, rest, rfl⟩
    have hp : p.1 = k := by
      rw [hitems] at hhead
      simpa using hhead
    have hfind : c.items.find? (fun q => decide (q.1 = k)) = some p := by
      rw [hitems]
      exact List.find?_cons_of_pos _ (by simp [hp])
    have hep : e = p := by
      rw [he] at hfind
      exact Option.some.inj hfind
    have hsp : e :: c.items.eraseP (fun q => decide (q.1 = k)) = c.items := by
      rw [hitems, List.eraseP_cons_of_pos (by simp [hp]), hep]
    rw [hsp]
    unfold move_to_front
    simp [h, hhead]
  · unfold move_to_front
    simp [h, hhead, he]

/-- A `put` on an already-registered key, when no hash invocation throws,
promotes the entry to the front and overwrites its value. -/
theorem put_existing_eq (cfg : FaultCfg K) (item : K × V) (c : Cache K V)
    (cnt cnt1 cnt2 : Nat)
    (h1 : hashCall cfg item.1 cnt = (cnt1, false)) (hk : item.1 ∈ c.keys)
    (h2 : hashCall cfg item.1 cnt1 = (cnt2, false)) {e : K × V}
    (he : c.items.find? (fun p => decide (p.1 = item.1)) = some e) :
    put cfg item c cnt =
      (update_front_value item.2
        { c with items := e :: c.items.eraseP (fun p => decide (p.1 = item.1)) },
       cnt2, Except.ok ()) := by
  simp [put, contains, h1, hk, move_to_front_ok cfg c item.1 cnt1 cnt2 h2 he]

/-! ### Shape lemmas: how each operation evaluates in each regime -/

theorem restrict_capacity_no_evict (cfg : FaultCfg K) (c : Cache K V) (cnt : Nat)
    (h : ¬ c.items.length > c.capacity) :
    restrict_capacity cfg c cnt = (c, cnt, Except.ok ()) := by
  unfold restrict_capacity
  rw [if_neg h]

theorem restrict_capacity_evict_fail (cfg : FaultCfg K) (c : Cache K V)
    (cnt cnt2 : Nat) (back : K × V) (h : c.items.length > c.capacity)
    (hlast : c.items.getLast? = some back)
    (hh : hashCall cfg back.1 cnt = (cnt2, true)) :
    restrict_capacity cfg c cnt = (c, cnt2, Except.error CacheError.hashFailure) := by
  unfold restrict_capacity
  rw [if_pos h, hlast]
  simp [hh]

theorem restrict_capacity_evict_ok (cfg : FaultCfg K) (c : Cache K V)
    (cnt cnt2 : Nat) (back : K × V) (h : c.items.length > c.capacity)
    (hlast : c.items.getLast? = some back)
    (hh : hashCall cfg back.1 cnt = (cnt2, false)) :
    restrict_capacity cfg c cnt =
      ({ c with items := c.items.dropLast, keys := c.keys.erase back.1 },
       cnt2, Except.ok ()) := by
  unfold restrict_capacity
  rw [if_pos h, hlast]
  simp [hh]

theorem insert_new_item_emplace_fail (cfg : FaultCfg K) (item : K × V)
    (c : Cache K V) (cnt cnt1 : Nat)
    (hh : hashCall cfg item.1 cnt = (cnt1, true)) :
    insert_new_item cfg item c cnt = (c, cnt1, Except.error CacheError.hashFailure) := by
  simp [insert_new_item, hh]

theorem insert_new_item_no_evict (cfg : FaultCfg K) (item : K × V)
    (c : Cache K V) (cnt cnt1 : Nat)
    (hh : hashCall cfg item.1 cnt = (cnt1, false))
    (hcap : ¬ (item :: c.items).length > c.capacity) :
    insert_new_item cfg item c cnt =
      ({ capacity := c.capacity, items := item :: c.items,
         keys := item.1 :: c.keys }, cnt1, Except.ok ()) := by
  have hr := restrict_capacity_no_evict cfg
    ({ capacity := c.capacity, items := item :: c.items,
       keys := item.1 :: c.keys } : Cache K V) cnt1 hcap
  simp [insert_new_item, hh, hr]

theorem insert_new_item_evict_fail (cfg : FaultCfg K) (item : K × V)
    (c : Cache K V) (cnt cnt1 cnt2 : Nat) (back : K × V)
    (hh : hashCall cfg item.1 cnt = (cnt1, false))
    (hcap : (item :: c.items).length > c.capacity)
    (hlast : (item :: c.items).getLast? = some back)
    (hh2 : hashCall cfg back.1 cnt1 = (cnt2, true)) :
    insert_new_item cfg item c cnt = (c, cnt2, Except.error CacheError.hashFailure) := by
  have hr := restrict_capacity_evict_fail cfg
    ({ capacity := c.capacity, items := item :: c.items,
       keys := item.1 :: c.keys } : Cache K V) cnt1 cnt2 back hcap hlast hh2
  simp [insert_new_item, hh, hr, List.erase_cons_head]

theorem insert_new_item_evict_ok (cfg : FaultCfg K) (item : K × V)
    (c : Cache K V) (cnt cnt1 cnt2 : Nat) (back : K × V)
    (hh : hashCall cfg item.1 cnt = (cnt1, false))
    (hcap : (item :: c.items).length > c.capacity)
    (hlast : (item :: c.items).getLast? = some back)
    (hh2 : hashCall cfg back.1 cnt1 = (cnt2, false)) :
    insert_new_item cfg item c cnt =
      ({ capacity := c.capacity, items := (item :: c.items).dropLast,
         keys := (item.1 :: c.keys).erase back.1 }, cnt2, Except.ok ()) := by
  have hr := restrict_capacity_evict_ok cfg
    ({ capacity := c.capacity, items := item :: c.items,
       keys := item.1 :: c.keys } : Cache K V) cnt1 cnt2 back hcap hlast hh2
  simp [insert_new_item, hh, hr]

theorem put_contains_fail (cfg : FaultCfg K) (item : K × V) (c : Cache K V)
    (cnt cnt1 : Nat) (hh : hashCall cfg item.1 cnt = (cnt1, true)) :
    put cfg item c cnt = (c, cnt1, Except.error CacheError.hashFailure) := by
  simp [put, contains, hh]

theorem put_new_eq (cfg : FaultCfg K) (item : K × V) (c : Cache K V)
    (cnt cnt1 : Nat) (hh : hashCall cfg item.1 cnt = (cnt1, false))
    (hk : item.1 ∉ c.keys) :
    put cfg item c cnt = insert_new_item cfg item c cnt1 := by
  simp [put, contains, hh, hk]

/-! ### Preservation of the representation invariant -/

theorem inv_clear (c : Cache K V) : Inv (bjg.clear c) := by
  refine ⟨rfl, Nat.zero_le _, ?_, ?_, ?_⟩ <;> simp [bjg.clear]

theorem update_front_value_map_fst (v : V) (c : Cache K V) :
    (update_front_value v c).items.map Prod.fst = c.items.map Prod.fst := by
  unfold update_front_value
  cases c.items <;> simp

theorem inv_update_front_value (v : V) {c : Cache K V} (h : Inv c) :
    Inv (update_front_value v c) := by
  obtain ⟨h1, h2, h3, h4, h5⟩ := h
  have hmap := update_front_value_map_fst v c
  have hlen : (update_front_value v c).items.length = c.items.length := by
    have := congrArg List.length hmap
    simpa using this
  exact ⟨h1.trans hlen.symm, h2, fun x => (h3 x).trans (by rw [hmap]),
    by rw [hmap]; exact h4, h5⟩

theorem inv_move_to_front (cfg : FaultCfg K) (k : K) (c : Cache K V) (cnt : Nat)
    (h : Inv c) : Inv (move_to_front cfg k c cnt).1 := by
  rcases hh : hashCall cfg k cnt with ⟨cnt1, b⟩
  cases b
  case true =>
    have hs : (move_to_front cfg k c cnt).1 = c := by
      simp [move_to_front, hh]
    rw [hs]
    exact h
  case false =>
    by_cases hhead : c.items.head?.map Prod.fst = some k
    · have hs : (move_to_front cfg k c cnt).1 = c := by
        simp [move_to_front, hh, hhead]
      rw [hs]
      exact h
    · cases hfind : c.items.find? (fun p => decide (p.1 = k)) with
      | none =>
        have hs : (move_to_front cfg k c cnt).1 = c := by
          simp [move_to_front, hh, hhead, hfind]
        rw [hs]
        exact h
      | some e =>
        have hs : (move_to_front cfg k c cnt).1
            = { c with items := e :: c.items.eraseP (fun p => decide (p.1 = k)) } := by
          simp [move_to_front, hh, hhead, hfind]
        rw [hs]
        obtain ⟨h1, h2, h3, h4, h5⟩ := h
        have hperm0 := perm_cons_eraseP_of_find? hfind
        have hperm := hperm0.map Prod.fst
        refine ⟨?_, h2, ?_, ?_, h5⟩
        · simpa using h1.trans hperm0.length_eq
        · intro x
          simpa using (h3 x).trans hperm.mem_iff
        · simpa using hperm.nodup_iff.mp h4

theorem inv_insert_new_item (cfg : FaultCfg K) (item : K × V) (c : Cache K V)
    (cnt : Nat) (h : Inv c) (hmem : item.1 ∉ c.keys) :
    Inv (insert_new_item cfg item c cnt).1 := by
  obtain ⟨h1, h2, h3, h4, h5⟩ := h
  have hmem' : item.1 ∉ c.items.map Prod.fst := fun hx => hmem ((h3 item.1).mpr hx)
  have keysN : (item.1 :: c.keys).Nodup := List.nodup_cons.mpr ⟨hmem, h5⟩
  have itemsN : ((item :: c.items).map Prod.fst).Nodup := by
    simpa using List.nodup_cons.mpr ⟨hmem', h4⟩
  have hmemiff : ∀ x : K,
      x ∈ item.1 :: c.keys ↔ x ∈ (item :: c.items).map Prod.fst := by
    intro x
    constructor
    · intro hx
      rcases List.mem_cons.mp hx with h' | h'
      · simp [h']
      · simp [(h3 x).mp h']
    · intro hx
      have hx' : x = item.1 ∨ x ∈ c.items.map Prod.fst := by
        simpa using hx
      rcases hx' with h' | h'
      · exact List.mem_cons.mpr (Or.inl h')
      · exact List.mem_cons.mpr (Or.inr ((h3 x).mpr h'))
  rcases hh : hashCall cfg item.1 cnt with ⟨cnt1, b⟩
  cases b with
  | true =>
    rw [insert_new_item_emplace_fail cfg item c cnt cnt1 hh]
    exact ⟨h1, h2, h3, h4, h5⟩
  | false =>
    by_cases hcap : (item :: c.items).length > c.capacity
    · cases hlast : (item :: c.items).getLast? with
      | none => simp [List.getLast?_eq_none_iff] at hlast
      | some back =>
        rcases hh2 : hashCall cfg back.1 cnt1 with ⟨cnt2, b2⟩
        cases b2 with
        | true =>
          rw [insert_new_item_evict_fail cfg item c cnt cnt1 cnt2 back hh hcap hlast hh2]
          exact ⟨h1, h2, h3, h4, h5⟩
        | false =>
          rw [insert_new_item_evict_ok cfg item c cnt cnt1 cnt2 back hh hcap hlast hh2]
          have hbackmem : back ∈ item :: c.items := mem_of_getLast?_eq_some hlast
          have hbackfst : back.1 ∈ (item :: c.items).map Prod.fst :=
            List.mem_map.mpr ⟨back, hbackmem, rfl⟩
          have hbackkeys : back.1 ∈ item.1 :: c.keys := (hmemiff back.1).mpr hbackfst
          have hmaplast : ((item :: c.items).map Prod.fst).getLast? = some back.1 := by
            rw [List.getLast?_map, hlast]
            rfl
          refine ⟨?_, ?_, ?_, ?_, ?_⟩
          · show ((item.1 :: c.keys).erase back.1).length
                = ((item :: c.items).dropLast).length
            rw [List.length_erase_of_mem hbackkeys, List.length_dropLast]
            simpa using h1
          · show ((item.1 :: c.keys).erase back.1).length ≤ c.capacity
            rw [List.length_erase_of_mem hbackkeys]
            simpa using h2
          · intro x
            show x ∈ (item.1 :: c.keys).erase back.1
              ↔ x ∈ ((item :: c.items).dropLast).map Prod.fst
            rw [keysN.mem_erase_iff, List.map_dropLast,
              mem_dropLast_iff_of_nodup itemsN hmaplast x]
            constructor
            · rintro ⟨hxb, hx⟩
              exact ⟨(hmemiff x).mp hx, hxb⟩
            · rintro ⟨hx, hxb⟩
              exact ⟨hxb, (hmemiff x).mpr hx⟩
          · show (((item :: c.items).dropLast).map Prod.fst).Nodup
            rw [List.map_dropLast]
            exact (((item :: c.items).map Prod.fst).dropLast_sublist).nodup itemsN
          · exact keysN.erase back.1
    · rw [insert_new_item_no_evict cfg item c cnt cnt1 hh hcap]
      refine ⟨by simpa using h1, ?_, hmemiff, itemsN, keysN⟩
      have hle : c.items.length + 1 ≤ c.capacity := by
        simpa using Nat.not_lt.mp hcap
      show (item.1 :: c.keys).length ≤ c.capacity
      rw [List.length_cons, h1]
      exact hle

theorem inv_put (cfg : FaultCfg K) (item : K × V) (c : Cache K V) (cnt : Nat)
    (h : Inv c) : Inv (put cfg item c cnt).1 := by
  rcases hh : hashCall cfg item.1 cnt with ⟨cnt1, b⟩
  cases b
  case true =>
    have hs : (put cfg item c cnt).1 = c := by
      simp [put, contains, hh]
    rw [hs]
    exact h
  case false =>
    by_cases hk : item.1 ∈ c.keys
    · rcases hm : move_to_front cfg item.1 c cnt1 with ⟨c2, cnt2, r⟩
      have hc2 : Inv c2 := by
        have := inv_move_to_front cfg item.1 c cnt1 h
        rw [hm] at this
        exact this
      cases r with
      | error e =>
        have hs : (put cfg item c cnt).1 = c2 := by
          simp [put, contains, hh, hk, hm]
        rw [hs]
        exact hc2
      | ok u =>
        have hs : (put cfg item c cnt).1 = update_front_value item.2 c2 := by
          simp [put, contains, hh, hk, hm]
        rw [hs]
        exact inv_update_front_value item.2 hc2
    · have hs : (put cfg item c cnt).1 = (insert_new_item cfg item c cnt1).1 := by
        simp [put, contains, hh, hk]
      rw [hs]
      exact inv_insert_new_item cfg item c cnt1 h hk

theorem inv_get (cfg : FaultCfg K) (k : K) (c : Cache K V) (cnt : Nat)
    (h : Inv c) : Inv (get cfg k c cnt).1 := by
  rcases hh : hashCall cfg k cnt with ⟨cnt1, b⟩
  cases b
  case true =>
    have hs : (get cfg k c cnt).1 = c := by
      simp [get, contains, hh]
    rw [hs]
    exact h
  case false =>
    by_cases hk : k ∈ c.keys
    · rcases hm : move_to_front cfg k c cnt1 with ⟨c2, cnt2, r⟩
      have hc2 : Inv c2 := by
        have := inv_move_to_front cfg k c cnt1 h
        rw [hm] at this
        exact this
      cases r with
      | error e =>
        have hs : (get cfg k c cnt).1 = c2 := by
          simp [get, contains, hh, hk, hm]
        rw [hs]
        exact hc2
      | ok u =>
        cases hi : c2.items with
        | nil =>
          have hs : (get cfg k c cnt).1 = c2 := by
            simp [get, contains, hh, hk, hm, hi]
          rw [hs]
          exact hc2
        | cons e rest =>
          have hs : (get cfg k c cnt).1 = c2 := by
            simp [get, contains, hh, hk, hm, hi]
          rw [hs]
          exact hc2
    · have hs : (get cfg k c cnt).1 = c := by
        simp [get, contains, hh, hk]
      rw [hs]
      exact h

/-! ### Claim C4: the representation invariant holds in every reachable state -/

/-- C4: every state reachable from a freshly constructed cache by any sequence
of public calls — successful or rolled back, under any fault schedule —
satisfies the representation invariant: `size()` (the index entry count)
equals the entry count of the recency sequence, `size() <= capacity`, the key
set of the index equals the key set of the sequence, and each key occurs at
most once in the sequence (and at most once in the index). -/
theorem claim_C4_reachable_invariant (c : Cache K V) (h : Reachable c) :
    Inv c := by
  induction h with
  | init capacity hcap =>
    exact ⟨rfl, Nat.zero_le _, by simp, by simp, by simp⟩
  | put cfg item c cnt hr ih => exact inv_put cfg item c cnt ih
  | get cfg k c cnt hr ih => exact inv_get cfg k c cnt ih
  | clear c hr ih => exact inv_clear c

theorem claim_C4_reachable_invariant_witness :
    Inv ((put (⟨0, []⟩ : FaultCfg Nat) (1, "a")
        (⟨2, [], []⟩ : Cache Nat String) 0).1) :=
  claim_C4_reachable_invariant _
    (Reachable.put _ _ _ _ (Reachable.init 2 (by decide)))

/-! ### Claim C7: constructor behaviour -/

/-- C7: constructing with `capacity == 0` fails with `InvalidCapacity` and
produces no engine; constructing with any `capacity ≥ 1` succeeds and yields
an empty cache (`size() == 0`) with that fixed capacity bound. -/
theorem claim_C7_construct {K V : Type} (capacity : Nat) :
    (capacity = 0 →
      construct K V capacity = Except.error CacheError.invalidCapacity) ∧
    (capacity ≠ 0 →
      construct K V capacity
          = Except.ok { capacity := capacity, items := [], keys := [] } ∧
      size ({ capacity := capacity, items := [], keys := [] } : Cache K V) = 0) := by
  constructor
  · intro h
    simp [construct, h]
  · intro h
    exact ⟨by simp [construct, h], rfl⟩

theorem claim_C7_construct_witness :
    construct Nat String 0 = Except.error CacheError.invalidCapacity ∧
    construct Nat String 2
      = Except.ok { capacity := 2, items := [], keys := [] } :=
  ⟨(claim_C7_construct 0).1 rfl, ((claim_C7_construct 2).2 (by decide)).1⟩

/-! ### Claim C1: rollback when the index-registration hash fails -/

/-- C1: if `key` is not in the cache and the hash invoked by the
index-registration step (`keys_.emplace`) of `put` throws — the `contains`
lookup having succeeded — then `put` leaves the cache state exactly as it was
(hence `size`, every `contains` answer, all stored values and the recency
order are unchanged) and propagates the failure to the caller. -/
theorem claim_C1_registration_failure_rollback (cfg : FaultCfg K) (c : Cache K V)
    (k : K) (v : V) (cnt cnt1 cnt2 : Nat)
    (hmem : k ∉ c.keys)
    (h1 : hashCall cfg k cnt = (cnt1, false))
    (h2 : hashCall cfg k cnt1 = (cnt2, true)) :
    put cfg (k, v) c cnt = (c, cnt2, Except.error CacheError.hashFailure) := by
  simp [put, contains, h1, hmem, insert_new_item, h2]

theorem claim_C1_registration_failure_rollback_witness :
    put (⟨5, [2]⟩ : FaultCfg Nat) (5, "e")
        (⟨2, [(1, "a")], [1]⟩ : Cache Nat String) 0 =
      (⟨2, [(1, "a")], [1]⟩, 2, Except.error CacheError.hashFailure) :=
  claim_C1_registration_failure_rollback _ _ 5 "e" 0 1 2
    (by decide) (by decide) (by decide)

/-! ### Claim C2: rollback when the eviction-removal hash fails -/

/-- C2: on a full cache (`size() == capacity`) and a fresh key, if the
eviction-removal step of `put` throws (the `keys_.erase` of the back entry's
key hashes it and fails), the cache reverts exactly to its pre-call state —
in particular the provisionally inserted new key and its index entry are gone
— and the failure propagates; a subsequent `put` of the same item whose hash
invocations all succeed commits, inserting the item at the front and evicting
precisely the back (least-recently-used) entry. -/
theorem claim_C2_eviction_failure_rollback (cfg : FaultCfg K) (c : Cache K V)
    (k : K) (v : V) (back : K × V) (cnt cnt1 cnt2 cnt3 cnt4 cnt5 cnt6 : Nat)
    (hInv : Inv c) (hfull : size c = c.capacity) (hcap : 0 < c.capacity)
    (hk : k ∉ c.keys)
    (hback : c.items.getLast? = some back)
    (h1 : hashCall cfg k cnt = (cnt1, false))
    (h2 : hashCall cfg k cnt1 = (cnt2, false))
    (h3 : hashCall cfg back.1 cnt2 = (cnt3, true))
    (h4 : hashCall cfg k cnt3 = (cnt4, false))
    (h5 : hashCall cfg k cnt4 = (cnt5, false))
    (h6 : hashCall cfg back.1 cnt5 = (cnt6, false)) :
    put cfg (k, v) c cnt = (c, cnt3, Except.error CacheError.hashFailure) ∧
    put cfg (k, v) c cnt3 =
      ({ capacity := c.capacity, items := (k, v) :: c.items.dropLast,
         keys := (k :: c.keys).erase back.1 }, cnt6, Except.ok ()) ∧
    back.1 ∉ (k :: c.keys).erase back.1 ∧
    k ∈ (k :: c.keys).erase back.1 := by
  obtain ⟨hl1, hl2, hl3, hl4, hl5⟩ := hInv
  have hlen : c.items.length = c.capacity := by
    rw [← hl1]
    exact hfull
  have hover : ((k, v) :: c.items).length > c.capacity := by
    simp [hlen]
  obtain ⟨p, rest, hitems⟩ : ∃ p rest, c.items = p :: rest := by
    cases hi : c.items with
    | nil =>
      rw [hi] at hlen
      simp at hlen
      omega
    | cons p rest => exact ⟨p, rest, rfl⟩
  have hlast : ((k, v) :: c.items).getLast? = some back := by
    rw [hitems, List.getLast?_cons_cons, ← hitems]
    exact hback
  have hbackkeys : back.1 ∈ c.keys :=
    (hl3 back.1).mpr
      (List.mem_map.mpr ⟨back, mem_of_getLast?_eq_some hback, rfl⟩)
  have hkb : k ≠ back.1 := fun he => hk (he ▸ hbackkeys)
  have keysN : (k :: c.keys).Nodup := List.nodup_cons.mpr ⟨hk, hl5⟩
  have hdrop : ((k, v) :: c.items).dropLast = (k, v) :: c.items.dropLast := by
    rw [hitems, List.dropLast_cons₂]
  refine ⟨?_, ?_, ?_, ?_⟩
  · rw [put_new_eq cfg (k, v) c cnt cnt1 h1 hk,
      insert_new_item_evict_fail cfg (k, v) c cnt1 cnt2 cnt3 back h2 hover hlast h3]
  · rw [put_new_eq cfg (k, v) c cnt3 cnt4 h4 hk,
      insert_new_item_evict_ok cfg (k, v) c cnt4 cnt5 cnt6 back h5 hover hlast h6,
      hdrop]
  · intro hmem
    exact absurd (keysN.mem_erase_iff.mp hmem).1 (by simp)
  · exact keysN.mem_erase_iff.mpr ⟨hkb, List.mem_cons_self k c.keys⟩

theorem claim_C2_eviction_failure_rollback_witness :
    put (⟨9, [1]⟩ : FaultCfg Nat) (7, "c")
        (⟨2, [(5, "b"), (9, "a")], [5, 9]⟩ : Cache Nat String) 0 =
      (⟨2, [(5, "b"), (9, "a")], [5, 9]⟩, 1,
       Except.error CacheError.hashFailure) ∧
    put (⟨9, [1]⟩ : FaultCfg Nat) (7, "c")
        (⟨2, [(5, "b"), (9, "a")], [5, 9]⟩ : Cache Nat String) 1 =
      ({ capacity := 2,
         items := (7, "c") :: ([(5, "b"), (9, "a")] : List (Nat × String)).dropLast,
         keys := ([7, 5, 9] : List Nat).erase 9 }, 2, Except.ok ()) ∧
    (9 : Nat) ∉ ([7, 5, 9] : List Nat).erase 9 ∧
    (7 : Nat) ∈ ([7, 5, 9] : List Nat).erase 9 :=
  claim_C2_eviction_failure_rollback (⟨9, [1]⟩ : FaultCfg Nat)
    (⟨2, [(5, "b"), (9, "a")], [5, 9]⟩ : Cache Nat String)
    7 "c" (9, "a") 0 0 0 1 1 1 2
    ⟨rfl, by decide, fun k => Iff.rfl, by decide, by decide⟩
    rfl (by decide) (by decide) (by decide)
    (by decide) (by decide) (by decide) (by decide) (by decide) (by decide)

/-! ### Claim C5: `put` on an existing key -/

/-- C5: for every cache satisfying the representation invariant and every key
already present, a `put(key, value)` that completes without failure replaces
that entry's stored value with `value` and moves the entry to the front
(most-recently-used position) of the recency sequence, leaves the key index
unchanged and hence leaves `size()` unchanged. -/
theorem claim_C5_put_existing_key (cfg : FaultCfg K) (c : Cache K V) (k : K)
    (v : V) (cnt : Nat) (hInv : Inv c) (hk : k ∈ c.keys)
    (hok : (put cfg (k, v) c cnt).2.2 = Except.ok ()) :
    (put cfg (k, v) c cnt).1.items
        = (k, v) :: c.items.eraseP (fun p => decide (p.1 = k)) ∧
    (put cfg (k, v) c cnt).1.keys = c.keys ∧
    size (put cfg (k, v) c cnt).1 = size c := by
  obtain ⟨e, he, hek⟩ := find?_eq_some_of_mem_keys hInv hk
  rcases hh1 : hashCall cfg k cnt with ⟨cnt1, b1⟩
  cases b1 with
  | true =>
    exfalso
    simp [put, contains, hh1] at hok
  | false =>
    rcases hh2 : hashCall cfg k cnt1 with ⟨cnt2, b2⟩
    cases b2 with
    | true =>
      exfalso
      simp [put, contains, hh1, hk, move_to_front, hh2] at hok
    | false =>
      rw [put_existing_eq cfg (k, v) c cnt cnt1 cnt2 hh1 hk hh2 he]
      refine ⟨?_, rfl, rfl⟩
      simp [update_front_value, hek]

theorem claim_C5_put_existing_key_witness :
    (put (⟨0, []⟩ : FaultCfg Nat) (2, "B")
        (⟨2, [(1, "a"), (2, "b")], [1, 2]⟩ : Cache Nat String) 0).1.items
      = (2, "B") :: ([(1, "a"), (2, "b")] : List (Nat × String)).eraseP
          (fun p => decide (p.1 = 2)) ∧
    (put (⟨0, []⟩ : FaultCfg Nat) (2, "B")
        (⟨2, [(1, "a"), (2, "b")], [1, 2]⟩ : Cache Nat String) 0).1.keys
      = [1, 2] ∧
    size (put (⟨0, []⟩ : FaultCfg Nat) (2, "B")
        (⟨2, [(1, "a"), (2, "b")], [1, 2]⟩ : Cache Nat String) 0).1
      = size (⟨2, [(1, "a"), (2, "b")], [1, 2]⟩ : Cache Nat String) :=
  claim_C5_put_existing_key _ _ 2 "B" 0
    ⟨rfl, by decide, fun k => Iff.rfl, by decide, by decide⟩ (by decide) rfl

/-! ### Claim C6: `get` behaviour -/

/-- C6: `get(key)` fails with `KeyNotFound` when the key is absent, leaving
the cache unchanged; when the key is present (and no hash invocation throws),
`get` returns the value stored for that key — the most recently put one — and
promotes the entry to the front, changing neither the key index nor `size()`
nor the entry set. -/
theorem claim_C6_get (cfg : FaultCfg K) (c : Cache K V) (k : K) (cnt cnt1 : Nat)
    (hInv : Inv c) (h1 : hashCall cfg k cnt = (cnt1, false)) :
    (k ∉ c.keys →
      get cfg k c cnt = (c, cnt1, Except.error CacheError.keyNotFound)) ∧
    (k ∈ c.keys → ∀ cnt2 : Nat, hashCall cfg k cnt1 = (cnt2, false) →
      ∃ e : K × V,
        c.items.find? (fun p => decide (p.1 = k)) = some e ∧ e.1 = k ∧
        get cfg k c cnt =
          ({ c with items := e :: c.items.eraseP (fun p => decide (p.1 = k)) },
           cnt2, Except.ok e.2) ∧
        size (get cfg k c cnt).1 = size c) := by
  constructor
  · intro hmem
    simp [get, contains, h1, hmem]
  · intro hk cnt2 h2
    obtain ⟨e, he, hek⟩ := find?_eq_some_of_mem_keys hInv hk
    refine ⟨e, he, hek, ?_, ?_⟩
    · simp [get, contains, h1, hk, move_to_front_ok cfg c k cnt1 cnt2 h2 he]
    · simp [get, contains, h1, hk, move_to_front_ok cfg c k cnt1 cnt2 h2 he, size]

theorem claim_C6_get_witness :
    get (⟨0, []⟩ : FaultCfg Nat) 9
        (⟨2, [(1, "a"), (2, "b")], [1, 2]⟩ : Cache Nat String) 0
      = (⟨2, [(1, "a"), (2, "b")], [1, 2]⟩, 0,
         Except.error CacheError.keyNotFound) ∧
    ∃ e : Nat × String,
      ([(1, "a"), (2, "b")] : List (Nat × String)).find?
          (fun p => decide (p.1 = 2)) = some e ∧ e.1 = 2 ∧
      get (⟨0, []⟩ : FaultCfg Nat) 2
          (⟨2, [(1, "a"), (2, "b")], [1, 2]⟩ : Cache Nat String) 0 =
        ({ capacity := 2,
           items := e :: ([(1, "a"), (2, "b")] : List (Nat × String)).eraseP
             (fun p => decide (p.1 = 2)),
           keys := [1, 2] }, 0, Except.ok e.2) ∧
      size (get (⟨0, []⟩ : FaultCfg Nat) 2
          (⟨2, [(1, "a"), (2, "b")], [1, 2]⟩ : Cache Nat String) 0).1
        = size (⟨2, [(1, "a"), (2, "b")], [1, 2]⟩ : Cache Nat String) :=
  ⟨(claim_C6_get (⟨0, []⟩ : FaultCfg Nat)
      (⟨2, [(1, "a"), (2, "b")], [1, 2]⟩ : Cache Nat String) 9 0 0
      ⟨rfl, by decide, fun k => Iff.rfl, by decide, by decide⟩ (by decide)).1
      (by decide),
   (claim_C6_get (⟨0, []⟩ : FaultCfg Nat)
      (⟨2, [(1, "a"), (2, "b")], [1, 2]⟩ : Cache Nat String) 2 0 0
      ⟨rfl, by decide, fun k => Iff.rfl, by decide, by decide⟩ (by decide)).2
      (by decide) 0 (by decide)⟩

/-! ### After a successful `put`, the item sits at the front -/

/-- Any `put` that completes without failure leaves its item at the front of
the recency sequence, with its key registered, and the capacity unchanged
(for caches with positive capacity satisfying the invariant). -/
theorem put_ok_front (cfg : FaultCfg K) (c : Cache K V) (k : K) (v : V)
    (cnt : Nat) (hInv : Inv c) (hcap : 0 < c.capacity)
    {c' : Cache K V} {cnt' : Nat}
    (hput : put cfg (k, v) c cnt = (c', cnt', Except.ok ())) :
    (∃ rest, c'.items = (k, v) :: rest) ∧ k ∈ c'.keys ∧
      c'.capacity = c.capacity := by
  rcases hh1 : hashCall cfg k cnt with ⟨cnt1, b1⟩
  cases b1 with
  | true =>
    rw [put_contains_fail cfg (k, v) c cnt cnt1 hh1] at hput
    have := congrArg (fun t => t.2.2) hput
    simp at this
  | false =>
    by_cases hk : k ∈ c.keys
    · rcases hh2 : hashCall cfg k cnt1 with ⟨cnt2, b2⟩
      cases b2 with
      | true =>
        have hbad : (put cfg (k, v) c cnt).2.2
            = Except.error CacheError.hashFailure := by
          simp [put, contains, hh1, hk, move_to_front, hh2]
        rw [hput] at hbad
        simp at hbad
      | false =>
        obtain ⟨e, he, hek⟩ := find?_eq_some_of_mem_keys hInv hk
        rw [put_existing_eq cfg (k, v) c cnt cnt1 cnt2 hh1 hk hh2 he] at hput
        have hc' := congrArg Prod.fst hput
        simp only at hc'
        refine ⟨⟨c.items.eraseP (fun p => decide (p.1 = k)), ?_⟩, ?_, ?_⟩
        · rw [← hc']
          simp [update_front_value, hek]
        · rw [← hc']
          simpa [update_front_value] using hk
        · rw [← hc']
          simp [update_front_value]
    · rw [put_new_eq cfg (k, v) c cnt cnt1 hh1 hk] at hput
      rcases hh2 : hashCall cfg k cnt1 with ⟨cnt2, b2⟩
      cases b2 with
      | true =>
        rw [insert_new_item_emplace_fail cfg (k, v) c cnt1 cnt2 hh2] at hput
        have := congrArg (fun t => t.2.2) hput
        simp at this
      | false =>
        by_cases hover : ((k, v) :: c.items).length > c.capacity
        · cases hlast0 : c.items.getLast? with
          | none =>
            rw [List.getLast?_eq_none_iff] at hlast0
            exfalso
            rw [hlast0] at hover
            simp at hover
            omega
          | some back =>
            obtain ⟨p, rest0, hitems⟩ : ∃ p rest0, c.items = p :: rest0 := by
              cases hi : c.items with
              | nil =>
                rw [hi] at hlast0
                simp at hlast0
              | cons p rest0 => exact ⟨p, rest0, rfl⟩
            have hlast : ((k, v) :: c.items).getLast? = some back := by
              rw [hitems, List.getLast?_cons_cons, ← hitems]
              exact hlast0
            have hbackkeys : back.1 ∈ c.keys :=
              (hInv.2.2.1 back.1).mpr
                (List.mem_map.mpr ⟨back, mem_of_getLast?_eq_some hlast0, rfl⟩)
            have hkb : k ≠ back.1 := fun he' => hk (he' ▸ hbackkeys)
            have keysN : (k :: c.keys).Nodup :=
              List.nodup_cons.mpr ⟨hk, hInv.2.2.2.2⟩
            rcases hh3 : hashCall cfg back.1 cnt2 with ⟨cnt3, b3⟩
            cases b3 with
            | true =>
              rw [insert_new_item_evict_fail cfg (k, v) c cnt1 cnt2 cnt3 back
                hh2 hover hlast hh3] at hput
              have := congrArg (fun t => t.2.2) hput
              simp at this
            | false =>
              rw [insert_new_item_evict_ok cfg (k, v) c cnt1 cnt2 cnt3 back
                hh2 hover hlast hh3] at hput
              have hc' := congrArg Prod.fst hput
              simp only at hc'
              refine ⟨⟨c.items.dropLast, ?_⟩, ?_, ?_⟩
              · rw [← hc']
                rw [hitems, List.dropLast_cons₂]
              · rw [← hc']
                exact keysN.mem_erase_iff.mpr ⟨hkb, List.mem_cons_self k c.keys⟩
              · rw [← hc']
        · rw [insert_new_item_no_evict cfg (k, v) c cnt1 cnt2 hh2 hover] at hput
          have hc' := congrArg Prod.fst hput
          simp only at hc'
          exact ⟨⟨c.items, by rw [← hc']⟩,
            by rw [← hc']; exact List.mem_cons_self k c.keys, by rw [← hc']⟩

/-! ### Claim C9: a successful `put` never evicts the item just inserted -/

/-- C9: if `put(key, value)` completes without failure, then immediately
afterwards `contains(key)` answers true and `get(key)` returns `value`: a
capacity-exceeding insert never evicts the entry just inserted, including the
boundary case `capacity == 1` (whenever the subsequent lookups' own hash
invocations do not fail). -/
theorem claim_C9_put_makes_key_present (cfg : FaultCfg K) (c c' : Cache K V)
    (k : K) (v : V) (cnt cnt' : Nat) (hInv : Inv c) (hcap : 0 < c.capacity)
    (hnf : ∀ n : Nat, (hashCall cfg k n).2 = false)
    (hput : put cfg (k, v) c cnt = (c', cnt', Except.ok ())) :
    ∀ m : Nat,
      (contains cfg k c' m).2 = Except.ok true ∧
      (get cfg k c' m).2.2 = Except.ok v := by
  obtain ⟨⟨rest, hfront⟩, hkeys, -⟩ :=
    put_ok_front cfg c k v cnt hInv hcap hput
  intro m
  rcases hhm : hashCall cfg k m with ⟨m1, bm⟩
  have hbm : bm = false := by
    have := hnf m
    rw [hhm] at this
    exact this
  subst hbm
  rcases hhm1 : hashCall cfg k m1 with ⟨m2, bm1⟩
  have hbm1 : bm1 = false := by
    have := hnf m1
    rw [hhm1] at this
    exact this
  subst hbm1
  have hmtf : move_to_front cfg k c' m1 = (c', m2, Except.ok ()) := by
    unfold move_to_front
    simp [hhm1, hfront]
  constructor
  · simp [contains, hhm, hkeys]
  · simp [get, contains, hhm, hkeys, hmtf, hfront]

theorem claim_C9_put_makes_key_present_witness :
    (contains (⟨0, []⟩ : FaultCfg Nat) 3
        (⟨1, [(3, "x")], [3]⟩ : Cache Nat String) 0).2 = Except.ok true ∧
    (get (⟨0, []⟩ : FaultCfg Nat) 3
        (⟨1, [(3, "x")], [3]⟩ : Cache Nat String) 0).2.2 = Except.ok "x" :=
  claim_C9_put_makes_key_present (⟨0, []⟩ : FaultCfg Nat)
    (⟨1, [(5, "a")], [5]⟩ : Cache Nat String)
    (⟨1, [(3, "x")], [3]⟩ : Cache Nat String) 3 "x" 0 0
    ⟨rfl, by decide, fun k => Iff.rfl, by decide, by decide⟩
    (by decide) (fun n => hashCall_nil _ rfl 3 n) rfl 0

/-! ### Claim C10: `put` is idempotent -/

/-- C10: for every invariant-satisfying cache with positive capacity and every
item whose `put` succeeds (the key's hash never failing), an immediately
repeated `put` of the same item succeeds and leaves the cache state — entry
set, stored values and recency order — exactly as after the first `put`. -/
theorem claim_C10_put_idempotent (cfg : FaultCfg K) (c c' : Cache K V) (k : K)
    (v : V) (cnt cnt' : Nat) (hInv : Inv c) (hcap : 0 < c.capacity)
    (hnf : ∀ n : Nat, (hashCall cfg k n).2 = false)
    (hput : put cfg (k, v) c cnt = (c', cnt', Except.ok ())) :
    (put cfg (k, v) c' cnt').1 = c' ∧
    (put cfg (k, v) c' cnt').2.2 = Except.ok () := by
  obtain ⟨⟨rest, hfront⟩, hkeys, -⟩ :=
    put_ok_front cfg c k v cnt hInv hcap hput
  rcases hh1 : hashCall cfg k cnt' with ⟨n1, b1⟩
  have hb1 : b1 = false := by
    have := hnf cnt'
    rw [hh1] at this
    exact this
  subst hb1
  rcases hh2 : hashCall cfg k n1 with ⟨n2, b2⟩
  have hb2 : b2 = false := by
    have := hnf n1
    rw [hh2] at this
    exact this
  subst hb2
  have hmtf : move_to_front cfg k c' n1 = (c', n2, Except.ok ()) := by
    unfold move_to_front
    simp [hh2, hfront]
  have hupd : update_front_value v c' = c' := by
    calc update_front_value v c' = { c' with items := (k, v) :: rest } := by
          simp [update_front_value, hfront]
      _ = { c' with items := c'.items } := by rw [hfront]
      _ = c' := rfl
  constructor
  · simp [put, contains, hh1, hkeys, hmtf, hupd]
  · simp [put, contains, hh1, hkeys, hmtf]

theorem claim_C10_put_idempotent_witness :
    (put (⟨0, []⟩ : FaultCfg Nat) (4, "y")
        (⟨1, [(4, "y")], [4]⟩ : Cache Nat String) 0).1
      = (⟨1, [(4, "y")], [4]⟩ : Cache Nat String) ∧
    (put (⟨0, []⟩ : FaultCfg Nat) (4, "y")
        (⟨1, [(4, "y")], [4]⟩ : Cache Nat String) 0).2.2 = Except.ok () :=
  claim_C10_put_idempotent (⟨0, []⟩ : FaultCfg Nat)
    (⟨1, [], []⟩ : Cache Nat String)
    (⟨1, [(4, "y")], [4]⟩ : Cache Nat String) 4 "y" 0 0
    ⟨rfl, by decide, fun k => by simp, by decide, by decide⟩
    (by decide) (fun n => hashCall_nil _ rfl 4 n) rfl

/-! ### Claim C3: insertion order and eviction order -/

/-- One fault-free `put` of a fresh key: the item goes to the front and the
recency list is truncated to `capacity`; the index keys stay in lock-step
with the sequence keys. -/
theorem put_new_nofail_step (cfg : FaultCfg K) (hne : cfg.failTimes = [])
    (e : K × V) (c : Cache K V) (cnt : Nat)
    (hkeys : c.keys = c.items.map Prod.fst)
    (hndc : (c.items.map Prod.fst).Nodup)
    (hfreshe : e.1 ∉ c.items.map Prod.fst)
    (hlen : c.items.length ≤ c.capacity) :
    (put cfg e c cnt).1.capacity = c.capacity ∧
    (put cfg e c cnt).1.items = (e :: c.items).take c.capacity ∧
    (put cfg e c cnt).1.keys = (put cfg e c cnt).1.items.map Prod.fst ∧
    (put cfg e c cnt).2.2 = Except.ok () := by
  have hek : e.1 ∉ c.keys := by
    rw [hkeys]
    exact hfreshe
  rcases hh1 : hashCall cfg e.1 cnt with ⟨cnt1, b1⟩
  have hb1 : b1 = false := by
    have := hashCall_nil cfg hne e.1 cnt
    rw [hh1] at this
    exact this
  subst hb1
  rw [put_new_eq cfg e c cnt cnt1 hh1 hek]
  rcases hh2 : hashCall cfg e.1 cnt1 with ⟨cnt2, b2⟩
  have hb2 : b2 = false := by
    have := hashCall_nil cfg hne e.1 cnt1
    rw [hh2] at this
    exact this
  subst hb2
  by_cases hover : (e :: c.items).length > c.capacity
  · have hlen' : c.items.length = c.capacity := by
      simp at hover
      omega
    cases hlast0 : (e :: c.items).getLast? with
    | none => simp [List.getLast?_eq_none_iff] at hlast0
    | some back =>
      rcases hh3 : hashCall cfg back.1 cnt2 with ⟨cnt3, b3⟩
      have hb3 : b3 = false := by
        have := hashCall_nil cfg hne back.1 cnt2
        rw [hh3] at this
        exact this
      subst hb3
      rw [insert_new_item_evict_ok cfg e c cnt1 cnt2 cnt3 back hh2 hover hlast0 hh3]
      have itemsN : ((e :: c.items).map Prod.fst).Nodup := by
        simpa using List.nodup_cons.mpr ⟨hfreshe, hndc⟩
      have hmaplast : ((e :: c.items).map Prod.fst).getLast? = some back.1 := by
        rw [List.getLast?_map, hlast0]
        rfl
      have hkeyseq : e.1 :: c.keys = (e :: c.items).map Prod.fst := by
        simp [hkeys]
      refine ⟨rfl, ?_, ?_, rfl⟩
      · show (e :: c.items).dropLast = (e :: c.items).take c.capacity
        rw [List.dropLast_eq_take]
        have hl : (e :: c.items).length - 1 = c.capacity := by
          simp [hlen']
        rw [hl]
      · show (e.1 :: c.keys).erase back.1
            = ((e :: c.items).dropLast).map Prod.fst
        rw [hkeyseq, erase_getLast_of_nodup itemsN hmaplast, List.map_dropLast]
  · rw [insert_new_item_no_evict cfg e c cnt1 cnt2 hh2 hover]
    refine ⟨rfl, ?_, ?_, rfl⟩
    · show e :: c.items = (e :: c.items).take c.capacity
      exact (List.take_of_length_le (Nat.not_lt.mp hover)).symm
    · show e.1 :: c.keys = (e :: c.items).map Prod.fst
      simp [hkeys]

/-- Folding fault-free `put`s of pairwise-distinct fresh keys over a cache
whose index mirrors its sequence keeps only the `capacity` most recent
entries, most recent first. -/
theorem putSeq_fresh_spec (cfg : FaultCfg K) (hne : cfg.failTimes = [])
    (es : List (K × V)) :
    ∀ (c : Cache K V) (cnt : Nat),
      (es.map Prod.fst).Nodup →
      (∀ x ∈ es.map Prod.fst, x ∉ c.items.map Prod.fst) →
      c.keys = c.items.map Prod.fst →
      (c.items.map Prod.fst).Nodup →
      c.items.length ≤ c.capacity →
      (putSeq cfg es c cnt).1.capacity = c.capacity ∧
      (putSeq cfg es c cnt).1.items = (es.reverse ++ c.items).take c.capacity ∧
      (putSeq cfg es c cnt).1.keys
        = (putSeq cfg es c cnt).1.items.map Prod.fst := by
  induction es with
  | nil =>
    intro c cnt _ _ hkeys hndc hlen
    refine ⟨rfl, ?_, ?_⟩
    · simp [putSeq, List.take_of_length_le hlen]
    · simpa [putSeq] using hkeys
  | cons e rest ih =>
    intro c cnt hnd hfresh hkeys hndc hlen
    have hnd' := hnd
    rw [List.map_cons, List.nodup_cons] at hnd'
    have hfreshe : e.1 ∉ c.items.map Prod.fst := hfresh e.1 (by simp)
    have itemsN : ((e :: c.items).map Prod.fst).Nodup := by
      simpa using List.nodup_cons.mpr ⟨hfreshe, hndc⟩
    obtain ⟨hcap', hitems', hkeys', -⟩ :=
      put_new_nofail_step cfg hne e c cnt hkeys hndc hfreshe hlen
    have hstep : putSeq cfg (e :: rest) c cnt
        = putSeq cfg rest (put cfg e c cnt).1 (put cfg e c cnt).2.1 := rfl
    have hsub : ((put cfg e c cnt).1.items.map Prod.fst).Sublist
        ((e :: c.items).map Prod.fst) := by
      rw [hitems']
      exact (List.take_sublist _ _).map Prod.fst
    obtain ⟨ihc, ihi, ihk⟩ := ih (put cfg e c cnt).1 (put cfg e c cnt).2.1
      hnd'.2
      (by
        intro x hx hmem
        have hx' : x ∈ (e :: c.items).map Prod.fst := hsub.subset hmem
        have hx'' : x = e.1 ∨ x ∈ c.items.map Prod.fst := by simpa using hx'
        rcases hx'' with h' | h'
        · exact hnd'.1 (h' ▸ hx)
        · exact hfresh x (List.mem_cons_of_mem _ hx) h')
      hkeys'
      (hsub.nodup itemsN)
      (by
        rw [hitems', hcap']
        simp [List.length_take])
    rw [hstep]
    refine ⟨ihc.trans hcap', ?_, ihk⟩
    rw [ihi, hcap', hitems', take_append_take, List.reverse_cons,
      List.append_assoc, List.singleton_append]

/-- C3: a successful `put` of a fresh key creates the entry at the front and,
exactly when this would push the entry count past `capacity`, drops the single
least-recently-used (back) entry; consequently, folding fault-free `put`s of
more distinct keys than `capacity` over a fresh cache retains exactly the
`capacity` most recently inserted entries (most recent first) — the evicted
keys are exactly the least recently used ones, oldest first — and
`size() == capacity`. -/
theorem claim_C3_new_key_insertion_and_eviction :
    (∀ (cfg : FaultCfg K) (c : Cache K V) (k : K) (v : V) (cnt : Nat),
      Inv c → k ∉ c.keys → (put cfg (k, v) c cnt).2.2 = Except.ok () →
      (put cfg (k, v) c cnt).1.items
        = (if ((k, v) :: c.items).length > c.capacity
           then ((k, v) :: c.items).dropLast
           else (k, v) :: c.items)) ∧
    (∀ (cfg : FaultCfg K) (cap : Nat) (es : List (K × V)) (cnt : Nat),
      cfg.failTimes = [] → cap ≠ 0 → (es.map Prod.fst).Nodup →
      cap < es.length →
      (putSeq cfg es { capacity := cap, items := [], keys := [] } cnt).1.items
        = es.reverse.take cap ∧
      size (putSeq cfg es { capacity := cap, items := [], keys := [] } cnt).1
        = cap) := by
  constructor
  · intro cfg c k v cnt hInv hk hok
    rcases hh1 : hashCall cfg k cnt with ⟨cnt1, b1⟩
    cases b1 with
    | true =>
      rw [put_contains_fail cfg (k, v) c cnt cnt1 hh1] at hok
      simp at hok
    | false =>
      have hputeq : put cfg (k, v) c cnt = insert_new_item cfg (k, v) c cnt1 :=
        put_new_eq cfg (k, v) c cnt cnt1 hh1 hk
      rw [hputeq] at hok ⊢
      rcases hh2 : hashCall cfg k cnt1 with ⟨cnt2, b2⟩
      cases b2 with
      | true =>
        rw [insert_new_item_emplace_fail cfg (k, v) c cnt1 cnt2 hh2] at hok
        simp at hok
      | false =>
        by_cases hover : ((k, v) :: c.items).length > c.capacity
        · cases hlast0 : ((k, v) :: c.items).getLast? with
          | none => simp [List.getLast?_eq_none_iff] at hlast0
          | some back =>
            rcases hh3 : hashCall cfg back.1 cnt2 with ⟨cnt3, b3⟩
            cases b3 with
            | true =>
              rw [insert_new_item_evict_fail cfg (k, v) c cnt1 cnt2 cnt3 back
                hh2 hover hlast0 hh3] at hok
              simp at hok
            | false =>
              rw [insert_new_item_evict_ok cfg (k, v) c cnt1 cnt2 cnt3 back
                hh2 hover hlast0 hh3, if_pos hover]
        · rw [insert_new_item_no_evict cfg (k, v) c cnt1 cnt2 hh2 hover,
            if_neg hover]
  · intro cfg cap es cnt hne hcap hnd hlt
    obtain ⟨hc, hi, hk⟩ := putSeq_fresh_spec cfg hne es
      { capacity := cap, items := [], keys := [] } cnt hnd
      (by intro x hx hmem; simp at hmem) rfl (by simp) (by simp)
    constructor
    · rw [hi]
      simp
    · show (putSeq cfg es { capacity := cap, items := [], keys := [] } cnt).1.keys.length
          = cap
      rw [hk, hi]
      simp only [List.append_nil, List.length_map, List.length_take,
        List.length_reverse]
      exact Nat.min_eq_left (Nat.le_of_lt hlt)

theorem claim_C3_new_key_insertion_and_eviction_witness :
    ((put (⟨0, []⟩ : FaultCfg Nat) (3, "x")
        (⟨1, [(5, "a")], [5]⟩ : Cache Nat String) 0).1.items
      = (if ([(3, "x"), (5, "a")] : List (Nat × String)).length > 1
         then ([(3, "x"), (5, "a")] : List (Nat × String)).dropLast
         else [(3, "x"), (5, "a")])) ∧
    ((putSeq (⟨0, []⟩ : FaultCfg Nat) [(1, "a"), (2, "b"), (3, "c")]
        ({ capacity := 2, items := [], keys := [] } : Cache Nat String) 0).1.items
      = ([(1, "a"), (2, "b"), (3, "c")] : List (Nat × String)).reverse.take 2 ∧
     size (putSeq (⟨0, []⟩ : FaultCfg Nat) [(1, "a"), (2, "b"), (3, "c")]
        ({ capacity := 2, items := [], keys := [] } : Cache Nat String) 0).1
      = 2) :=
  ⟨claim_C3_new_key_insertion_and_eviction.1 (⟨0, []⟩ : FaultCfg Nat)
      (⟨1, [(5, "a")], [5]⟩ : Cache Nat String) 3 "x" 0
      ⟨rfl, by decide, fun k => Iff.rfl, by decide, by decide⟩ (by decide) rfl,
   claim_C3_new_key_insertion_and_eviction.2 (⟨0, []⟩ : FaultCfg Nat)
      2 [(1, "a"), (2, "b"), (3, "c")] 0 rfl (by decide) (by decide) (by decide)⟩

/-! ### Claim C8: the fault-injection scenario of spec §8 -/

/-- The fault schedule of the spec's scenario: hashing key `1024` (the test
suite's `kInvalidArgValue`) throws on its 2nd and 6th invocation. -/
def claimedCfg : FaultCfg Nat := ⟨1024, [2, 6]⟩

/-- The fault schedule under which the scenario actually unfolds on the code:
hashing key `1024` throws on its 3rd (and 6th) invocation.  A `put` of a new
key hashes that key twice (once in `contains`, once in `keys_.emplace`), so
the first `put(X, "invalid")` performs invocations 1 and 2, and the eviction
`keys_.erase` triggered by `put(4, "four")` is invocation 3. -/
def amendedCfg : FaultCfg Nat := ⟨1024, [3, 6]⟩

/-- C8 counterexample: under the claimed schedule (hash of `X = 1024` failing
on its 2nd and 6th invocation), the very first `put(X, "invalid")` on an empty
capacity-3 cache does NOT succeed: `put` hashes `X` twice (in `contains` and
in `keys_.emplace`), so the 2nd invocation throws inside this `put`, which is
rolled back.  This refutes the claim that `put(X, "invalid")` succeeds with
that put performing only the 1st hash invocation. -/
theorem claim_C8_counterexample :
    put claimedCfg (1024, "invalid") (⟨3, [], []⟩ : Cache Nat String) 0 =
      (⟨3, [], []⟩, 2, Except.error CacheError.hashFailure) ∧
    (put claimedCfg (1024, "invalid") (⟨3, [], []⟩ : Cache Nat String) 0).2.2 ≠
      Except.ok () :=
  ⟨rfl, by
    intro h
    rw [show (put claimedCfg (1024, "invalid")
          (⟨3, [], []⟩ : Cache Nat String) 0).2.2
        = Except.error CacheError.hashFailure from rfl] at h
    exact Except.noConfusion h⟩

/-- C8 amended: with capacity 3 and the hash of `X = 1024` failing on its 3rd
(and 6th) invocation: `put(X,"invalid")` succeeds (hash invocations 1 and 2);
after `put(2,"two")` and `put(3,"three")`, `size() == 3`; `put(4,"four")`
triggers the eviction path's hash call as the 3rd invocation, which fails, the
cache remains `{X:"invalid", 2:"two", 3:"three"}` and the failure is surfaced;
a following `put(4,"four")` (whose eviction hash is the non-failing 4th
invocation) succeeds and evicts `X`, leaving `{2:"two", 3:"three", 4:"four"}`. -/
theorem claim_C8_amended_scenario :
    put amendedCfg (1024, "invalid") (⟨3, [], []⟩ : Cache Nat String) 0 =
      (⟨3, [(1024, "invalid")], [1024]⟩, 2, Except.ok ()) ∧
    put amendedCfg (2, "two") ⟨3, [(1024, "invalid")], [1024]⟩ 2 =
      (⟨3, [(2, "two"), (1024, "invalid")], [2, 1024]⟩, 2, Except.ok ()) ∧
    put amendedCfg (3, "three")
        ⟨3, [(2, "two"), (1024, "invalid")], [2, 1024]⟩ 2 =
      (⟨3, [(3, "three"), (2, "two"), (1024, "invalid")], [3, 2, 1024]⟩, 2,
       Except.ok ()) ∧
    size (⟨3, [(3, "three"), (2, "two"), (1024, "invalid")],
          [3, 2, 1024]⟩ : Cache Nat String) = 3 ∧
    put amendedCfg (4, "four")
        ⟨3, [(3, "three"), (2, "two"), (1024, "invalid")], [3, 2, 1024]⟩ 2 =
      (⟨3, [(3, "three"), (2, "two"), (1024, "invalid")], [3, 2, 1024]⟩, 3,
       Except.error CacheError.hashFailure) ∧
    put amendedCfg (4, "four")
        ⟨3, [(3, "three"), (2, "two"), (1024, "invalid")], [3, 2, 1024]⟩ 3 =
      (⟨3, [(4, "four"), (3, "three"), (2, "two")], [4, 3, 2]⟩, 4,
       Except.ok ()) :=
  ⟨rfl, rfl, rfl, rfl, rfl, rfl⟩

end bjg
